import Mathlib

/-!
Shallow embedding of the repository-export pipeline of SideStore Source Maker
(src/types.ts): `compareVersions`, `getFilteredApps`, `processRepoForExport`,
together with the data model (`AppItem`, `Repo`, export configuration).

Strings are modelled through their character lists; JavaScript's
`String.prototype.toLowerCase` is modelled on the ASCII range (the only range
the pipeline's inputs exercise), `trim` removes the usual ASCII whitespace,
and `localeCompare` is modelled as code-point lexicographic comparison with
result in {-1, 0, 1}.
-/

/-- Whitespace as removed by JavaScript `trim` (ASCII portion). -/
def isWsChar (c : Char) : Bool :=
  c = ' ' || c = '\t' || c = '\n' || c = '\r'

/-- Remove leading and trailing whitespace from a character list (JS `trim`). -/
def trimChars (l : List Char) : List Char :=
  ((l.dropWhile isWsChar).reverse.dropWhile isWsChar).reverse

/-- JS `s.replace(/^v/i, '')`: remove one leading `v` or `V` if the very first
character is one. -/
def stripV : List Char → List Char
  | [] => []
  | c :: cs => if c = 'v' || c = 'V' then cs else c :: cs

/-- The `clean` helper of `compareVersions`:
`(v || "").replace(/^v/i, '').trim()`.  Note the `v` removal happens BEFORE
the trim, so a `v` preceded by whitespace is not removed. -/
def cleanChars (l : List Char) : List Char :=
  trimChars (stripV l)

/-- JS `s.replace(/[^0-9.]/g, '')`: keep only digits and dots. -/
def keepDigitsDots (l : List Char) : List Char :=
  l.filter (fun c => c.isDigit || c = '.')

/-- JS `s.split('.')` on a character list. -/
def splitDots : List Char → List (List Char)
  | [] => [[]]
  | c :: cs =>
    if c = '.' then [] :: splitDots cs
    else
      match splitDots cs with
      | [] => [[c]]
      | h :: t => (c :: h) :: t

/-- JS `parseInt` on a dot-free segment produced by `splitDots` after
`keepDigitsDots` (segments are all-digit or empty); `none` models `NaN`. -/
def segToNat (l : List Char) : Option Nat :=
  if l.isEmpty then none
  else if l.all Char.isDigit then
    some (l.foldl (fun n c => 10 * n + (c.toNat - 48)) 0)
  else none

/-- The numeric segments of a cleaned version string:
`s.replace(/[^0-9.]/g, '').split('.').map(parseInt).filter(not NaN)`. -/
def numSegs (l : List Char) : List Nat :=
  (splitDots (keepDigitsDots l)).filterMap segToNat

/-- The `for` loop of `compareVersions`, iterating positions `i` upward while
`rem` iterations remain: positions past the end of a segment list contribute
`0` (`n[i] || 0`). -/
def cmpLoop (n1 n2 : List Nat) : Nat → Nat → Int
  | _, 0 => 0
  | i, rem + 1 =>
    let v1 := n1.getD i 0
    let v2 := n2.getD i 0
    if v1 > v2 then 1 else if v1 < v2 then -1 else cmpLoop n1 n2 (i + 1) rem

/-- Segment-by-segment comparison up to the longer segment list
(`len = Math.max(n1.length, n2.length)`). -/
def cmpSegs (n1 n2 : List Nat) : Int :=
  cmpLoop n1 n2 0 (max n1.length n2.length)

/-- Code-point lexicographic comparison, modelling `localeCompare`'s sign. -/
def lexCmp : List Char → List Char → Int
  | [], [] => 0
  | [], _ :: _ => -1
  | _ :: _, [] => 1
  | a :: xs, b :: ys =>
    if a < b then -1 else if b < a then 1 else lexCmp xs ys

/-- The cleaned form of a version string, as a character list. -/
def cleanedOf (v : String) : List Char := cleanChars v.data

/-- The numeric segments `compareVersions` extracts from a version string. -/
def segsOf (v : String) : List Nat := numSegs (cleanedOf v)

/-- `compareVersions` from src/types.ts. -/
def compareVersions (v1 v2 : String) : Int :=
  let s1 := cleanedOf v1
  let s2 := cleanedOf v2
  if s1 = s2 then 0
  else
    let n1 := numSegs s1
    let n2 := numSegs s2
    if n1 = [] ∧ n2 = [] then lexCmp s1 s2
    else cmpSegs n1 n2

/-- ASCII lower-casing of one character (the range JS `toLowerCase` and the
pipeline's inputs exercise). -/
def charLower (c : Char) : Char :=
  if 'A' ≤ c && c ≤ 'Z' then Char.ofNat (c.toNat + 32) else c

/-- JS `toLowerCase` on a string, ASCII range. -/
def lowerStr (s : String) : String := ⟨s.data.map charLower⟩

/-- JS `trim` on a string. -/
def trimStr (s : String) : String := ⟨trimChars s.data⟩

/-- The `compatibilityStatus` union type of `AppItem` in src/types.ts. -/
inductive CompatStatus where
  | safe
  | jit_required
  | trollstore_only
  | jailbreak_only
  | unknown
deriving DecidableEq

/-- The `AppItem` interface of src/types.ts.  `tintColor`, `size` and
`category` are optional; `compatibilityStatus` is optional (absent models the
missing key / `undefined`). -/
structure AppItem where
  id : String
  name : String
  bundleIdentifier : String
  developerName : String
  version : String
  versionDate : String
  versionDescription : String
  downloadURL : String
  localizedDescription : String
  iconURL : String
  tintColor : Option String
  size : Option Int
  category : Option String
  screenshotURLs : List String
  compatibilityStatus : Option CompatStatus
deriving DecidableEq

/-- The `Repo` interface of src/types.ts. -/
structure Repo where
  name : String
  subtitle : String
  description : String
  iconURL : String
  headerImageURL : String
  website : String
  tintColor : String
  apps : List AppItem
deriving DecidableEq

/-- The export configuration `{ deduplicate, filterIncompatible }`. -/
structure ExportConfig where
  deduplicate : Bool
  filterIncompatible : Bool
deriving DecidableEq

/-- The compatibility predicate inlined in `getFilteredApps`:
`if (st && st !== 'unknown') return !['jailbreak_only','trollstore_only','jit_required'].includes(st); return true`. -/
def keepCompat (app : AppItem) : Bool :=
  match app.compatibilityStatus with
  | some st =>
    if st ≠ CompatStatus.unknown then
      !([CompatStatus.jailbreak_only, CompatStatus.trollstore_only,
         CompatStatus.jit_required].contains st)
    else true
  | none => true

/-- The dedup key: `app.bundleIdentifier?.toLowerCase() || app.name.toLowerCase()`
(the lower-cased bundle identifier when non-empty — `""` is falsy — else the
lower-cased name). -/
def dedupKey (app : AppItem) : String :=
  let bid := lowerStr app.bundleIdentifier
  if bid = "" then lowerStr app.name else bid

/-- Lookup in the insertion-ordered map modelling the JS `Map` (`latestMap.get`). -/
def mapGet : List (String × AppItem) → String → Option AppItem
  | [], _ => none
  | (k, v) :: rest, key => if k = key then some v else mapGet rest key

/-- Update in the insertion-ordered map modelling the JS `Map` (`latestMap.set`):
an existing key keeps its position; a new key is appended. -/
def mapSet : List (String × AppItem) → String → AppItem → List (String × AppItem)
  | [], key, v => [(key, v)]
  | (k, w) :: rest, key, v =>
    if k = key then (key, v) :: rest else (k, w) :: mapSet rest key v

/-- One iteration of the dedup walk in `getFilteredApps`:
`if (!existing || compareVersions(app.version, existing.version) >= 0) latestMap.set(key, app)`. -/
def dedupStep (m : List (String × AppItem)) (app : AppItem) : List (String × AppItem) :=
  let key := dedupKey app
  match mapGet m key with
  | none => mapSet m key app
  | some existing =>
    if compareVersions app.version existing.version ≥ 0 then mapSet m key app
    else m

/-- `getFilteredApps` from src/types.ts. -/
def getFilteredApps (apps : List AppItem) (config : ExportConfig) : List AppItem :=
  if !config.deduplicate && !config.filterIncompatible then apps
  else
    let processed := if config.filterIncompatible then apps.filter keepCompat else apps
    if !config.deduplicate then processed
    else ((processed.foldl dedupStep []).map Prod.snd)

/-- The screenshot predicate of `processRepoForExport`:
`u && u.trim() !== ""`. -/
def screenshotKeep (u : String) : Bool :=
  !(u = "") && !(trimStr u = "")

/-- An app element of the exported manifest: the result of
`({ compatibilityStatus, ...rest }) => ({ ...rest, screenshotURLs: ... })` —
every `AppItem` field except `compatibilityStatus` is carried over (including
`id`), and `screenshotURLs` is filtered. -/
structure ExportedApp where
  id : String
  name : String
  bundleIdentifier : String
  developerName : String
  version : String
  versionDate : String
  versionDescription : String
  downloadURL : String
  localizedDescription : String
  iconURL : String
  tintColor : Option String
  size : Option Int
  category : Option String
  screenshotURLs : List String
deriving DecidableEq

/-- The per-app normalization of `processRepoForExport`. -/
def exportApp (app : AppItem) : ExportedApp :=
  { id := app.id
    name := app.name
    bundleIdentifier := app.bundleIdentifier
    developerName := app.developerName
    version := app.version
    versionDate := app.versionDate
    versionDescription := app.versionDescription
    downloadURL := app.downloadURL
    localizedDescription := app.localizedDescription
    iconURL := app.iconURL
    tintColor := app.tintColor
    size := app.size
    category := app.category
    screenshotURLs := app.screenshotURLs.filter screenshotKeep }

/-- The exported manifest document: repository fields carried through, apps
normalized. -/
structure ExportedRepo where
  name : String
  subtitle : String
  description : String
  iconURL : String
  headerImageURL : String
  website : String
  tintColor : String
  apps : List ExportedApp
deriving DecidableEq

/-- `processRepoForExport` from src/types.ts. -/
def processRepoForExport (repo : Repo) (config : ExportConfig) : ExportedRepo :=
  { name := repo.name
    subtitle := repo.subtitle
    description := repo.description
    iconURL := repo.iconURL
    headerImageURL := repo.headerImageURL
    website := repo.website
    tintColor := repo.tintColor
    apps := (getFilteredApps repo.apps config).map exportApp }

/-- Reading an exported app element back in as a repo record (JSON round
trip): every carried field is read back verbatim and the absent
`compatibilityStatus` key reads as `undefined`, i.e. `none`. -/
def reimportApp (e : ExportedApp) : AppItem :=
  { id := e.id
    name := e.name
    bundleIdentifier := e.bundleIdentifier
    developerName := e.developerName
    version := e.version
    versionDate := e.versionDate
    versionDescription := e.versionDescription
    downloadURL := e.downloadURL
    localizedDescription := e.localizedDescription
    iconURL := e.iconURL
    tintColor := e.tintColor
    size := e.size
    category := e.category
    screenshotURLs := e.screenshotURLs
    compatibilityStatus := none }

/-- Reading an exported manifest back in as a repo document. -/
def reimportRepo (r : ExportedRepo) : Repo :=
  { name := r.name
    subtitle := r.subtitle
    description := r.description
    iconURL := r.iconURL
    headerImageURL := r.headerImageURL
    website := r.website
    tintColor := r.tintColor
    apps := r.apps.map reimportApp }

/-! ### Helper lemmas about the insertion-ordered map -/

theorem mapGet_mapSet_self (m : List (String × AppItem)) (k : String) (v : AppItem) :
    mapGet (mapSet m k v) k = some v := by
  induction m with
  | nil => simp [mapSet, mapGet]
  | cons p rest ih =>
    obtain ⟨k0, v0⟩ := p
    by_cases h : k0 = k
    · simp [mapSet, h, mapGet]
    · simp [mapSet, h, mapGet, ih]

theorem mapGet_mapSet_ne (m : List (String × AppItem)) (k k' : String) (v : AppItem)
    (h : k' ≠ k) : mapGet (mapSet m k v) k' = mapGet m k' := by
  induction m with
  | nil => simp [mapSet, mapGet, Ne.symm h]
  | cons p rest ih =>
    obtain ⟨k0, v0⟩ := p
    by_cases h0 : k0 = k
    · subst h0
      simp [mapSet, mapGet, Ne.symm h]
    · simp only [mapSet, if_neg h0, mapGet]
      by_cases h1 : k0 = k'
      · simp [h1]
      · simp [h1, ih]

theorem mapGet_eq_none_iff (m : List (String × AppItem)) (k : String) :
    mapGet m k = none ↔ k ∉ m.map Prod.fst := by
  induction m with
  | nil => simp [mapGet]
  | cons p rest ih =>
    obtain ⟨k0, v0⟩ := p
    by_cases h : k0 = k
    · simp [mapGet, h]
    · simp [mapGet, h, ih, Ne.symm h]

theorem mapGet_eq_some_mem (m : List (String × AppItem)) (k : String) (v : AppItem)
    (h : mapGet m k = some v) : (k, v) ∈ m := by
  induction m with
  | nil => simp [mapGet] at h
  | cons p rest ih =>
    obtain ⟨k0, v0⟩ := p
    by_cases h0 : k0 = k
    · subst h0
      simp [mapGet] at h
      simp [h]
    · simp [mapGet, h0] at h
      exact List.mem_cons_of_mem _ (ih h)

theorem mapSet_keys_of_mem (m : List (String × AppItem)) (k : String) (v : AppItem)
    (h : k ∈ m.map Prod.fst) : (mapSet m k v).map Prod.fst = m.map Prod.fst := by
  induction m with
  | nil => simp at h
  | cons p rest ih =>
    obtain ⟨k0, v0⟩ := p
    by_cases h0 : k0 = k
    · simp [mapSet, h0]
    · simp only [List.map_cons, List.mem_cons] at h
      rcases h with h | h
      · exact absurd h.symm h0
      · simp [mapSet, h0, ih h]

theorem mapSet_of_not_mem (m : List (String × AppItem)) (k : String) (v : AppItem)
    (h : k ∉ m.map Prod.fst) : mapSet m k v = m ++ [(k, v)] := by
  induction m with
  | nil => simp [mapSet]
  | cons p rest ih =>
    obtain ⟨k0, v0⟩ := p
    simp only [List.map_cons, List.mem_cons] at h
    push_neg at h
    simp [mapSet, Ne.symm h.1, ih h.2]

theorem mapSet_mem_origin (m : List (String × AppItem)) (k : String) (v : AppItem)
    (p : String × AppItem) (h : p ∈ mapSet m k v) : p ∈ m ∨ p = (k, v) := by
  induction m with
  | nil => simp [mapSet] at h; simp [h]
  | cons q rest ih =>
    obtain ⟨k0, v0⟩ := q
    by_cases h0 : k0 = k
    · simp [mapSet, h0] at h
      rcases h with h | h
      · right; simp [h]
      · left; exact List.mem_cons_of_mem _ h
    · simp only [mapSet, if_neg h0, List.mem_cons] at h
      rcases h with h | h
      · left; simp [h]
      · rcases ih h with h' | h'
        · left; exact List.mem_cons_of_mem _ h'
        · right; exact h'

/-! ### Helper lemmas about the dedup walk -/

theorem dedupStep_def (m : List (String × AppItem)) (a : AppItem) :
    dedupStep m a =
      match mapGet m (dedupKey a) with
      | none => mapSet m (dedupKey a) a
      | some e =>
        if compareVersions a.version e.version ≥ 0 then mapSet m (dedupKey a) a
        else m := rfl

theorem dedupStep_keys (m : List (String × AppItem)) (app : AppItem) :
    (dedupStep m app).map Prod.fst =
      if dedupKey app ∈ m.map Prod.fst then m.map Prod.fst
      else m.map Prod.fst ++ [dedupKey app] := by
  rw [dedupStep_def]
  cases h : mapGet m (dedupKey app) with
  | none =>
    have hnot := (mapGet_eq_none_iff m (dedupKey app)).1 h
    simp [mapSet_of_not_mem m _ _ hnot, hnot]
  | some e =>
    have hmem : dedupKey app ∈ m.map Prod.fst := by
      have hp := mapGet_eq_some_mem m _ _ h
      exact List.mem_map.2 ⟨(dedupKey app, e), hp, rfl⟩
    by_cases hc : compareVersions app.version e.version ≥ 0
    · simp [hc, mapSet_keys_of_mem m _ _ hmem, hmem]
    · simp [hc, hmem]

theorem dedupStep_mem_origin (m : List (String × AppItem)) (app : AppItem)
    (p : String × AppItem) (h : p ∈ dedupStep m app) :
    p ∈ m ∨ p = (dedupKey app, app) := by
  rw [dedupStep_def] at h
  cases hg : mapGet m (dedupKey app) with
  | none =>
    rw [hg] at h
    exact mapSet_mem_origin m _ _ p h
  | some e =>
    rw [hg] at h
    by_cases hc : compareVersions app.version e.version ≥ 0
    · simp only [hc, if_true] at h
      exact mapSet_mem_origin m _ _ p h
    · simp only [hc, if_false] at h
      exact Or.inl h

theorem dedupFold_mem_origin (l : List AppItem) :
    ∀ (m : List (String × AppItem)) (p : String × AppItem),
      p ∈ l.foldl dedupStep m → p ∈ m ∨ p.2 ∈ l := by
  induction l with
  | nil => intro m p h; exact Or.inl h
  | cons a rest ih =>
    intro m p h
    rcases ih (dedupStep m a) p h with h' | h'
    · rcases dedupStep_mem_origin m a p h' with h'' | h''
      · exact Or.inl h''
      · right; simp [h'']
    · right; exact List.mem_cons_of_mem _ h'

theorem dedupFold_wellKeyed (l : List AppItem) :
    ∀ (m : List (String × AppItem)), (∀ p ∈ m, dedupKey p.2 = p.1) →
      ∀ p ∈ l.foldl dedupStep m, dedupKey p.2 = p.1 := by
  induction l with
  | nil => intro m hm p hp; exact hm p hp
  | cons a rest ih =>
    intro m hm p hp
    refine ih (dedupStep m a) ?_ p hp
    intro q hq
    rcases dedupStep_mem_origin m a q hq with h | h
    · exact hm q h
    · simp [h]

theorem dedupFold_keys_nodup (l : List AppItem) :
    ∀ (m : List (String × AppItem)), (m.map Prod.fst).Nodup →
      ((l.foldl dedupStep m).map Prod.fst).Nodup := by
  induction l with
  | nil => intro m hm; exact hm
  | cons a rest ih =>
    intro m hm
    refine ih (dedupStep m a) ?_
    rw [dedupStep_keys]
    by_cases h : dedupKey a ∈ m.map Prod.fst
    · simpa [h] using hm
    · rw [if_neg h]
      exact hm.append (List.nodup_singleton _) (by simpa using h)

/-- The spec's description of the winner choice for one key: an in-order walk
where a later record with the key replaces the current winner exactly when
`compareVersions(candidate.version, existing.version) >= 0`. -/
def winStep (k : String) (w : Option AppItem) (a : AppItem) : Option AppItem :=
  if dedupKey a = k then
    match w with
    | none => some a
    | some e => if compareVersions a.version e.version ≥ 0 then some a else some e
  else w

theorem dedupStep_get (m : List (String × AppItem)) (a : AppItem) (k : String) :
    mapGet (dedupStep m a) k = winStep k (mapGet m k) a := by
  rw [dedupStep_def]
  by_cases hk : dedupKey a = k
  · subst hk
    cases hg : mapGet m (dedupKey a) with
    | none => simp [winStep, mapGet_mapSet_self]
    | some e =>
      by_cases hc : compareVersions a.version e.version ≥ 0
      · simp [winStep, hg, hc, mapGet_mapSet_self]
      · simp [winStep, hg, hc]
  · cases hg : mapGet m (dedupKey a) with
    | none => simp [winStep, hk, mapGet_mapSet_ne m _ k _ (fun h => hk h.symm)]
    | some e =>
      by_cases hc : compareVersions a.version e.version ≥ 0
      · simp [winStep, hk, hc, mapGet_mapSet_ne m _ k _ (fun h => hk h.symm)]
      · simp [winStep, hk, hc]

theorem dedupFold_get (l : List AppItem) :
    ∀ (m : List (String × AppItem)) (k : String),
      mapGet (l.foldl dedupStep m) k = l.foldl (winStep k) (mapGet m k) := by
  induction l with
  | nil => intro m k; rfl
  | cons a rest ih =>
    intro m k
    simp only [List.foldl_cons]
    rw [ih, dedupStep_get]

theorem mapGet_append_singleton_ne (m : List (String × AppItem)) (k k' : String)
    (v : AppItem) (h : k ≠ k') (h2 : mapGet m k' = none) :
    mapGet (m ++ [(k, v)]) k' = none := by
  induction m with
  | nil => simp [mapGet, h]
  | cons p rest ih =>
    obtain ⟨k0, v0⟩ := p
    by_cases h0 : k0 = k'
    · simp [mapGet, h0] at h2
    · simp [mapGet, h0] at h2 ⊢
      exact ih h2

theorem dedupFold_of_fresh (l : List AppItem) :
    ∀ (m : List (String × AppItem)), (l.map dedupKey).Nodup →
      (∀ a ∈ l, mapGet m (dedupKey a) = none) →
      l.foldl dedupStep m = m ++ l.map (fun a => (dedupKey a, a)) := by
  induction l with
  | nil => intro m _ _; simp
  | cons a rest ih =>
    intro m hnd hfresh
    rw [List.map_cons, List.nodup_cons] at hnd
    have ha : mapGet m (dedupKey a) = none := hfresh a (List.mem_cons_self a rest)
    have hstep : dedupStep m a = m ++ [(dedupKey a, a)] := by
      rw [dedupStep_def, ha]
      exact mapSet_of_not_mem m _ _ ((mapGet_eq_none_iff m _).1 ha)
    have hrec := ih (m ++ [(dedupKey a, a)]) hnd.2 (by
      intro b hb
      have hne : dedupKey a ≠ dedupKey b := by
        intro hEq
        exact hnd.1 (hEq ▸ List.mem_map_of_mem dedupKey hb)
      exact mapGet_append_singleton_ne m _ _ _ hne (hfresh b (List.mem_cons_of_mem _ hb)))
    simp only [List.foldl_cons, hstep]
    rw [hrec]
    simp

/-- First-occurrence subsequence of a key list, relative to keys already seen. -/
def firstOccurAux : List String → List String → List String
  | _, [] => []
  | seen, k :: ks =>
    if k ∈ seen then firstOccurAux seen ks
    else k :: firstOccurAux (k :: seen) ks

/-- The distinct keys of a list, in order of first occurrence. -/
def firstOccur (l : List String) : List String := firstOccurAux [] l

theorem firstOccurAux_congr (l : List String) :
    ∀ (s1 s2 : List String), (∀ x, x ∈ s1 ↔ x ∈ s2) →
      firstOccurAux s1 l = firstOccurAux s2 l := by
  induction l with
  | nil => intro s1 s2 _; rfl
  | cons k ks ih =>
    intro s1 s2 hs
    by_cases h : k ∈ s1
    · simp [firstOccurAux, h, (hs k).1 h, ih s1 s2 hs]
    · have h2 : k ∉ s2 := fun hx => h ((hs k).2 hx)
      simp only [firstOccurAux, if_neg h, if_neg h2]
      refine congrArg _ (ih _ _ ?_)
      intro x
      simp [hs x]

theorem dedupFold_keys (l : List AppItem) :
    ∀ (m : List (String × AppItem)),
      (l.foldl dedupStep m).map Prod.fst =
        m.map Prod.fst ++ firstOccurAux (m.map Prod.fst) (l.map dedupKey) := by
  induction l with
  | nil => intro m; simp [firstOccurAux]
  | cons a rest ih =>
    intro m
    simp only [List.foldl_cons, List.map_cons]
    rw [ih (dedupStep m a), dedupStep_keys]
    by_cases h : dedupKey a ∈ m.map Prod.fst
    · simp [h, firstOccurAux]
    · simp only [if_neg h, firstOccurAux]
      rw [firstOccurAux_congr (rest.map dedupKey)
        (m.map Prod.fst ++ [dedupKey a]) (dedupKey a :: m.map Prod.fst)
        (by intro x; simp; tauto)]
      simp

theorem wellKeyed_snd_map (m : List (String × AppItem))
    (h : ∀ p ∈ m, dedupKey p.2 = p.1) :
    (m.map Prod.snd).map dedupKey = m.map Prod.fst := by
  rw [List.map_map]
  exact List.map_congr_left h

/-! ### Concrete records used in examples and witnesses -/

/-- A record with the given id, name, bundle identifier, version and status;
the remaining fields are fixed placeholders. -/
def mkApp (i nm bid ver : String) (st : Option CompatStatus) : AppItem :=
  { id := i, name := nm, bundleIdentifier := bid, developerName := "dev"
    version := ver, versionDate := "2024-01-01", versionDescription := "d"
    downloadURL := "", localizedDescription := "", iconURL := ""
    tintColor := none, size := none, category := none
    screenshotURLs := [], compatibilityStatus := st }

def appA : AppItem := mkApp "A" "X" "com.x" "1.0" none

def appB : AppItem := mkApp "B" "X" "com.x" "2.0" none

def appC : AppItem := mkApp "C" "X" "com.x" "2.0" none

def rcaseA : AppItem := mkApp "A" "Foo" "com.X" "1.0" none

def rcaseB : AppItem := mkApp "B" "Bar" "com.x" "2.0" none

def ordX1 : AppItem := mkApp "x1" "X" "com.x" "1.0" none

def ordY : AppItem := mkApp "y" "Y" "com.y" "9.9" none

def ordX2 : AppItem := mkApp "x2" "X" "com.x" "2.0" none

def appSafe : AppItem := mkApp "s" "S" "com.s" "1.0" (some CompatStatus.safe)

def appJb : AppItem := mkApp "j" "J" "com.j" "1.0" (some CompatStatus.jailbreak_only)

def appUnk : AppItem := mkApp "u" "U" "com.u" "1.0" (some CompatStatus.unknown)

def shotApp : AppItem :=
  { mkApp "delta-sample" "Delta" "com.rileytestut.Delta" "1.5.1" (some CompatStatus.safe) with
    screenshotURLs := ["a", "", "  ", "b"] }

def shotRepo : Repo :=
  { name := "R", subtitle := "s", description := "d", iconURL := ""
    headerImageURL := "", website := "", tintColor := "#fff", apps := [shotApp] }

/-! ### C8 — reflexivity and the listed test equations of `compareVersions` -/

/-- C8: `compareVersions(x, x) == 0` for every string `x`, and the listed test
equations hold: `"1.0"` vs `"1.0.0"` is `0`, `"v2.0"` vs `"2.0"` is `0`,
`"2.0"` vs `"1.9"` is `1`, `"1.9"` vs `"2.0"` is `-1`. -/
theorem compareVersions_refl_and_tests :
    (∀ x : String, compareVersions x x = 0) ∧
    compareVersions "1.0" "1.0.0" = 0 ∧
    compareVersions "v2.0" "2.0" = 0 ∧
    compareVersions "2.0" "1.9" = 1 ∧
    compareVersions "1.9" "2.0" = -1 := by
  refine ⟨?_, by decide, by decide, by decide, by decide⟩
  intro x
  simp [compareVersions]

/-! ### C9 — the cleaning step of `compareVersions` -/

/-- Cleaning in the order the claim words it: surrounding whitespace removed
first, then one leading `v`/`V`.  Stated only for comparison with the code's
`cleanChars`, which strips the `v` BEFORE trimming, so a `v` preceded by
whitespace is not removed. -/
def cleanSpecOrder (s : String) : List Char := stripV (trimChars s.data)

/-- C9 counterexample: `" va"` and `"va"` agree after removing surrounding
whitespace and one leading `v`, yet `compareVersions` does not return 0 on
them — the code's `clean` runs `.replace(/^v/i, '')` before `.trim()`, so the
`v` of `" va"` survives and the lexicographic fallback compares `"va"` with
`"a"`. -/
theorem compareVersions_clean_order_cex :
    cleanSpecOrder " va" = cleanSpecOrder "va" ∧
    compareVersions " va" "va" = 1 := by decide

/-- C9 amended: `compareVersions` cleans each input by stripping one leading
case-insensitive `v` and THEN trimming surrounding whitespace, and returns 0
whenever the two cleaned strings are byte-equal; hence inputs that agree
after that cleaning (in that order) compare as equal. -/
theorem compareVersions_cleaned_eq (v1 v2 : String)
    (h : cleanedOf v1 = cleanedOf v2) : compareVersions v1 v2 = 0 := by
  simp [compareVersions, cleanedOf] at h ⊢
  simp [h]

/-- Witness for C9's amended theorem at `"v1.2 "` and `"1.2"`. -/
theorem compareVersions_cleaned_eq_w :
    cleanedOf "v1.2 " = cleanedOf "1.2" ∧ compareVersions "v1.2 " "1.2" = 0 :=
  ⟨by decide, compareVersions_cleaned_eq "v1.2 " "1.2" (by decide)⟩

/-! ### C7 — the lexicographic fallback and one-sided segment comparison -/

theorem cmpLoop_succ (n1 n2 : List Nat) (i r : Nat) :
    cmpLoop n1 n2 i (r + 1) =
      if n1.getD i 0 > n2.getD i 0 then 1
      else if n1.getD i 0 < n2.getD i 0 then -1
      else cmpLoop n1 n2 (i + 1) r := rfl

theorem nil_getD (i : Nat) : ([] : List Nat).getD i 0 = 0 := rfl

theorem cmpLoop_nil_left_zero (n2 : List Nat) :
    ∀ (rem i : Nat), (∀ j, j < rem → n2.getD (i + j) 0 = 0) →
      cmpLoop [] n2 i rem = 0 := by
  intro rem
  induction rem with
  | zero => intro i _; rfl
  | succ r ih =>
    intro i h
    have h0 : n2.getD i 0 = 0 := by simpa using h 0 (Nat.succ_pos r)
    rw [cmpLoop_succ, nil_getD, h0]
    simp only [Nat.lt_irrefl, if_false]
    refine ih (i + 1) ?_
    intro j hj
    have := h (j + 1) (Nat.succ_lt_succ hj)
    simpa [Nat.add_assoc, Nat.add_comm 1 j] using this

theorem cmpLoop_nil_left_neg (n2 : List Nat) :
    ∀ (rem j i : Nat), j < rem → 0 < n2.getD (i + j) 0 →
      cmpLoop [] n2 i rem = -1 := by
  intro rem
  induction rem with
  | zero => intro j i hj _; exact absurd hj (Nat.not_lt_zero j)
  | succ r ih =>
    intro j i hj hpos
    rw [cmpLoop_succ, nil_getD]
    by_cases h0 : 0 < n2.getD i 0
    · rw [if_neg (Nat.not_lt_zero _), if_pos h0]
    · have hz : n2.getD i 0 = 0 := Nat.le_zero.1 (Nat.not_lt.1 h0)
      have hj0 : j ≠ 0 := by
        intro hEq
        rw [hEq, Nat.add_zero] at hpos
        exact h0 hpos
      obtain ⟨j', rfl⟩ := Nat.exists_eq_succ_of_ne_zero hj0
      rw [hz, if_neg (Nat.lt_irrefl 0), if_neg (Nat.lt_irrefl 0)]
      refine ih j' (i + 1) (Nat.lt_of_succ_lt_succ hj) ?_
      simpa [Nat.add_assoc, Nat.add_comm 1 j'] using hpos

theorem cmpLoop_nil_right_zero (n1 : List Nat) :
    ∀ (rem i : Nat), (∀ j, j < rem → n1.getD (i + j) 0 = 0) →
      cmpLoop n1 [] i rem = 0 := by
  intro rem
  induction rem with
  | zero => intro i _; rfl
  | succ r ih =>
    intro i h
    have h0 : n1.getD i 0 = 0 := by simpa using h 0 (Nat.succ_pos r)
    rw [cmpLoop_succ, nil_getD, h0]
    simp only [Nat.lt_irrefl, if_false]
    refine ih (i + 1) ?_
    intro j hj
    have := h (j + 1) (Nat.succ_lt_succ hj)
    simpa [Nat.add_assoc, Nat.add_comm 1 j] using this

theorem cmpLoop_nil_right_pos (n1 : List Nat) :
    ∀ (rem j i : Nat), j < rem → 0 < n1.getD (i + j) 0 →
      cmpLoop n1 [] i rem = 1 := by
  intro rem
  induction rem with
  | zero => intro j i hj _; exact absurd hj (Nat.not_lt_zero j)
  | succ r ih =>
    intro j i hj hpos
    rw [cmpLoop_succ, nil_getD]
    by_cases h0 : 0 < n1.getD i 0
    · rw [if_pos h0]
    · have hz : n1.getD i 0 = 0 := Nat.le_zero.1 (Nat.not_lt.1 h0)
      have hj0 : j ≠ 0 := by
        intro hEq
        rw [hEq, Nat.add_zero] at hpos
        exact h0 hpos
      obtain ⟨j', rfl⟩ := Nat.exists_eq_succ_of_ne_zero hj0
      rw [hz, if_neg (Nat.lt_irrefl 0), if_neg (Nat.lt_irrefl 0)]
      refine ih j' (i + 1) (Nat.lt_of_succ_lt_succ hj) ?_
      simpa [Nat.add_assoc, Nat.add_comm 1 j'] using hpos

theorem getD_eq_zero_of_all (l : List Nat) :
    (∀ n ∈ l, n = 0) → ∀ i, l.getD i 0 = 0 := by
  induction l with
  | nil => intro _ i; rfl
  | cons a t ih =>
    intro h i
    cases i with
    | zero => simpa using h a (List.mem_cons_self a t)
    | succ j => simpa using ih (fun n hn => h n (List.mem_cons_of_mem a hn)) j

theorem exists_getD_pos (l : List Nat) (h : ∃ n ∈ l, n ≠ 0) :
    ∃ j, j < l.length ∧ 0 < l.getD j 0 := by
  induction l with
  | nil => simp at h
  | cons a t ih =>
    obtain ⟨n, hn, hne⟩ := h
    rcases List.mem_cons.1 hn with rfl | hmem
    · exact ⟨0, Nat.succ_pos _, Nat.pos_of_ne_zero hne⟩
    · obtain ⟨j, hj, hp⟩ := ih ⟨n, hmem, hne⟩
      exact ⟨j + 1, Nat.succ_lt_succ hj, by simpa using hp⟩

theorem compareVersions_eq_cmpSegs (v1 v2 : String)
    (h1 : cleanedOf v1 ≠ cleanedOf v2)
    (h : ¬(segsOf v1 = [] ∧ segsOf v2 = [])) :
    compareVersions v1 v2 = cmpSegs (segsOf v1) (segsOf v2) := by
  simp only [compareVersions, segsOf] at h ⊢
  rw [if_neg h1, if_neg h]

theorem segsOf_congr (v1 v2 : String) (h : cleanedOf v1 = cleanedOf v2) :
    segsOf v1 = segsOf v2 := by
  simp only [segsOf, h]

/-- C7: the lexicographic fallback runs exactly when both sides have zero
numeric segments (and the cleaned strings differ); with exactly one
segmentless side, the segment loop runs with that side contributing `0`
everywhere, so the numeric side wins unless all of its segments are zero;
concretely `compareVersions "abc" "1.2" = -1` and
`compareVersions "abc" "0.0" = 0`. -/
theorem compareVersions_fallback_rule :
    (∀ v1 v2 : String, cleanedOf v1 ≠ cleanedOf v2 → segsOf v1 = [] →
        segsOf v2 = [] →
        compareVersions v1 v2 = lexCmp (cleanedOf v1) (cleanedOf v2)) ∧
    (∀ v1 v2 : String, cleanedOf v1 ≠ cleanedOf v2 →
        (segsOf v1 ≠ [] ∨ segsOf v2 ≠ []) →
        compareVersions v1 v2 = cmpSegs (segsOf v1) (segsOf v2)) ∧
    (∀ v1 v2 : String, segsOf v1 = [] → segsOf v2 ≠ [] →
        ((∀ n ∈ segsOf v2, n = 0) → compareVersions v1 v2 = 0) ∧
        ((∃ n ∈ segsOf v2, n ≠ 0) → compareVersions v1 v2 = -1)) ∧
    (∀ v1 v2 : String, segsOf v1 ≠ [] → segsOf v2 = [] →
        ((∀ n ∈ segsOf v1, n = 0) → compareVersions v1 v2 = 0) ∧
        ((∃ n ∈ segsOf v1, n ≠ 0) → compareVersions v1 v2 = 1)) ∧
    compareVersions "abc" "1.2" = -1 ∧
    compareVersions "abc" "0.0" = 0 := by
  have hone : ∀ v1 v2 : String, segsOf v1 = [] → segsOf v2 ≠ [] →
      compareVersions v1 v2 = cmpSegs (segsOf v1) (segsOf v2) := by
    intro v1 v2 h2 h3
    have h1 : cleanedOf v1 ≠ cleanedOf v2 := by
      intro hEq
      exact h3 (by rw [← segsOf_congr v1 v2 hEq, h2])
    exact compareVersions_eq_cmpSegs v1 v2 h1 (fun hc => h3 hc.2)
  have hone' : ∀ v1 v2 : String, segsOf v1 ≠ [] → segsOf v2 = [] →
      compareVersions v1 v2 = cmpSegs (segsOf v1) (segsOf v2) := by
    intro v1 v2 h2 h3
    have h1 : cleanedOf v1 ≠ cleanedOf v2 := by
      intro hEq
      exact h2 (by rw [segsOf_congr v1 v2 hEq, h3])
    exact compareVersions_eq_cmpSegs v1 v2 h1 (fun hc => h2 hc.1)
  refine ⟨?_, ?_, ?_, ?_, by decide, by decide⟩
  · intro v1 v2 h1 h2 h3
    simp only [compareVersions, segsOf] at h2 h3 ⊢
    rw [if_neg h1, if_pos ⟨h2, h3⟩]
  · intro v1 v2 h1 h
    refine compareVersions_eq_cmpSegs v1 v2 h1 ?_
    intro hc
    rcases h with h | h
    · exact h hc.1
    · exact h hc.2
  · intro v1 v2 h2 h3
    constructor
    · intro hall
      rw [hone v1 v2 h2 h3, h2]
      simp only [cmpSegs, List.length_nil, Nat.zero_max]
      exact cmpLoop_nil_left_zero _ _ _
        (fun j _ => getD_eq_zero_of_all _ hall _)
    · intro hex
      rw [hone v1 v2 h2 h3, h2]
      simp only [cmpSegs, List.length_nil, Nat.zero_max]
      obtain ⟨j, hj, hp⟩ := exists_getD_pos _ hex
      exact cmpLoop_nil_left_neg _ _ j 0 hj (by simpa using hp)
  · intro v1 v2 h2 h3
    constructor
    · intro hall
      rw [hone' v1 v2 h2 h3, h3]
      simp only [cmpSegs, List.length_nil, Nat.max_zero]
      exact cmpLoop_nil_right_zero _ _ _
        (fun j _ => getD_eq_zero_of_all _ hall _)
    · intro hex
      rw [hone' v1 v2 h2 h3, h3]
      simp only [cmpSegs, List.length_nil, Nat.max_zero]
      obtain ⟨j, hj, hp⟩ := exists_getD_pos _ hex
      exact cmpLoop_nil_right_pos _ _ j 0 hj (by simpa using hp)

/-- Witness for C7 at concrete inputs: `"xa"` vs `"ya"` exercises the
lexicographic fallback, and `"abc"` vs `"1.2"` the one-sided segment rule. -/
theorem compareVersions_fallback_rule_w :
    compareVersions "xa" "ya" = lexCmp (cleanedOf "xa") (cleanedOf "ya") ∧
    compareVersions "abc" "1.2" = -1 :=
  ⟨compareVersions_fallback_rule.1 "xa" "ya" (by decide) (by decide) (by decide),
   ((compareVersions_fallback_rule.2.2.1 "abc" "1.2" (by decide) (by decide)).2
     ⟨1, by decide, by decide⟩)⟩

/-! ### C6 — the compatibility filter -/

/-- The retention rule as the spec words it: keep a record whose status is
absent or `unknown`, or whose status is not one of the three incompatible
kinds. -/
def specKeep (a : AppItem) : Bool :=
  match a.compatibilityStatus with
  | none => true
  | some st =>
    st = CompatStatus.unknown ||
      !(st = CompatStatus.jailbreak_only || st = CompatStatus.trollstore_only ||
        st = CompatStatus.jit_required)

/-- C6: with `filterIncompatible` disabled the pipeline is the identity on the
app list; enabled, it retains exactly the records whose status is absent,
`unknown`, or not one of `{jailbreak_only, trollstore_only, jit_required}`,
preserving relative order (`List.filter`), and on
`[safe, jailbreak_only, unknown]` only the `jailbreak_only` record is dropped. -/
theorem filterIncompat_spec :
    (∀ apps : List AppItem, getFilteredApps apps ⟨false, false⟩ = apps) ∧
    (∀ apps : List AppItem, getFilteredApps apps ⟨false, true⟩ = apps.filter specKeep) ∧
    getFilteredApps [appSafe, appJb, appUnk] ⟨false, true⟩ = [appSafe, appUnk] := by
  refine ⟨fun apps => rfl, ?_, by decide⟩
  intro apps
  show apps.filter keepCompat = apps.filter specKeep
  refine List.filter_congr ?_
  intro a _
  rcases hst : a.compatibilityStatus with _ | st
  · simp [keepCompat, specKeep, hst]
  · cases st <;> simp [keepCompat, specKeep, hst]

/-! ### C3 — last-write-wins winner choice -/

/-- C3: with deduplication enabled, the winner stored for a key is the result
of the in-order walk where a later record with the key replaces the current
winner exactly when `compareVersions(candidate, existing) >= 0` (`winStep`);
the output lists the stored winners; and on the three-record example sharing
`com.x` with versions `1.0`, `2.0`, `2.0` the result is exactly the third
record. -/
theorem dedup_last_wins :
    (∀ (apps : List AppItem) (k : String),
        mapGet (apps.foldl dedupStep []) k = apps.foldl (winStep k) none) ∧
    (∀ apps : List AppItem,
        getFilteredApps apps ⟨true, false⟩ = (apps.foldl dedupStep []).map Prod.snd) ∧
    getFilteredApps [appA, appB, appC] ⟨true, false⟩ = [appC] := by
  refine ⟨?_, fun apps => rfl, by decide⟩
  intro apps k
  rw [dedupFold_get]
  rfl

/-! ### C4 — the dedup key -/

theorem lowerStr_eq_empty_iff (s : String) : lowerStr s = "" ↔ s = "" := by
  rw [String.ext_iff, String.ext_iff]
  show s.data.map charLower = [] ↔ s.data = []
  simp

theorem dedupKey_def (a : AppItem) :
    dedupKey a = if a.bundleIdentifier = "" then lowerStr a.name
      else lowerStr a.bundleIdentifier := by
  show (if lowerStr a.bundleIdentifier = "" then lowerStr a.name
      else lowerStr a.bundleIdentifier) = _
  by_cases h : a.bundleIdentifier = ""
  · rw [if_pos ((lowerStr_eq_empty_iff _).2 h), if_pos h]
  · rw [if_neg (fun hx => h ((lowerStr_eq_empty_iff _).1 hx)), if_neg h]

theorem dedup_pair_same_key (a b : AppItem) (h : dedupKey a = dedupKey b) :
    (getFilteredApps [a, b] ⟨true, false⟩).length = 1 := by
  show ((dedupStep (dedupStep [] a) b).map Prod.snd).length = 1
  have h1 : dedupStep [] a = [(dedupKey a, a)] := rfl
  rw [h1, dedupStep_def]
  have h2 : mapGet [(dedupKey a, a)] (dedupKey b) = some a := by
    simp [mapGet, h]
  rw [h2]
  by_cases hc : compareVersions b.version a.version ≥ 0
  · simp only [hc, if_true]
    have h3 : mapSet [(dedupKey a, a)] (dedupKey b) b = [(dedupKey b, b)] := by
      simp [mapSet, h]
    rw [h3]
    rfl
  · simp only [hc, if_false]
    rfl

theorem dedup_pair_diff_key (a b : AppItem) (h : dedupKey a ≠ dedupKey b) :
    getFilteredApps [a, b] ⟨true, false⟩ = [a, b] := by
  show ((dedupStep (dedupStep [] a) b).map Prod.snd) = [a, b]
  have h1 : dedupStep [] a = [(dedupKey a, a)] := rfl
  rw [h1, dedupStep_def]
  have h2 : mapGet [(dedupKey a, a)] (dedupKey b) = none := by
    simp [mapGet, h]
  rw [h2]
  have h3 : mapSet [(dedupKey a, a)] (dedupKey b) b
      = [(dedupKey a, a), (dedupKey b, b)] := by
    simp [mapSet, h]
  rw [h3]
  rfl

/-- C4 counterexample: `rcaseA` and `rcaseB` carry DIFFERING bundle
identifiers (`"com.X"` vs `"com.x"`) and differing names, yet deduplication
collapses them into one record — the key is the lower-cased identifier, so
identifiers differing only in case do collapse. -/
theorem dedup_distinct_bid_collapse_cex :
    rcaseA.bundleIdentifier ≠ rcaseB.bundleIdentifier ∧
    rcaseA.name ≠ rcaseB.name ∧
    getFilteredApps [rcaseA, rcaseB] ⟨true, false⟩ = [rcaseB] := by decide

/-- C4 amended: the dedup key of a record is its lower-cased
`bundleIdentifier` when non-empty, else its lower-cased `name`; two records
with empty `bundleIdentifier` and case-insensitively identical names collapse
to one; and two records whose bundle identifiers are non-empty and differ
even after lower-casing never collapse, regardless of their names. -/
theorem dedupKey_rule :
    (∀ a : AppItem, dedupKey a =
        if a.bundleIdentifier = "" then lowerStr a.name
        else lowerStr a.bundleIdentifier) ∧
    (∀ a b : AppItem, a.bundleIdentifier = "" → b.bundleIdentifier = "" →
        lowerStr a.name = lowerStr b.name →
        dedupKey a = dedupKey b ∧
          (getFilteredApps [a, b] ⟨true, false⟩).length = 1) ∧
    (∀ a b : AppItem, a.bundleIdentifier ≠ "" → b.bundleIdentifier ≠ "" →
        lowerStr a.bundleIdentifier ≠ lowerStr b.bundleIdentifier →
        dedupKey a ≠ dedupKey b ∧
          getFilteredApps [a, b] ⟨true, false⟩ = [a, b]) := by
  refine ⟨dedupKey_def, ?_, ?_⟩
  · intro a b ha hb hn
    have hk : dedupKey a = dedupKey b := by
      rw [dedupKey_def, dedupKey_def, if_pos ha, if_pos hb, hn]
    exact ⟨hk, dedup_pair_same_key a b hk⟩
  · intro a b ha hb hn
    have hk : dedupKey a ≠ dedupKey b := by
      rw [dedupKey_def, dedupKey_def, if_neg ha, if_neg hb]
      exact hn
    exact ⟨hk, dedup_pair_diff_key a b hk⟩

/-- Witness for C4's amended theorem: two non-empty, case-insensitively
distinct bundle identifiers do not collapse. -/
theorem dedupKey_rule_w :
    dedupKey appSafe ≠ dedupKey appJb ∧
    getFilteredApps [appSafe, appJb] ⟨true, false⟩ = [appSafe, appJb] :=
  dedupKey_rule.2.2 appSafe appJb (by decide) (by decide) (by decide)

/-! ### C5 — output ordered by first insertion of each key -/

/-- C5: with deduplication enabled the output's keys are exactly the distinct
input keys in order of FIRST occurrence, even when a key's winning record
occurs later — on `[com.x@1.0, com.y@9.9, com.x@2.0]` the winner of `com.x`
is the third record but it is listed first. -/
theorem dedup_first_insertion_order :
    (∀ apps : List AppItem,
        (getFilteredApps apps ⟨true, false⟩).map dedupKey =
          firstOccur (apps.map dedupKey)) ∧
    getFilteredApps [ordX1, ordY, ordX2] ⟨true, false⟩ = [ordX2, ordY] := by
  refine ⟨?_, by decide⟩
  intro apps
  show ((apps.foldl dedupStep []).map Prod.snd).map dedupKey = _
  rw [wellKeyed_snd_map (apps.foldl dedupStep [])
    (dedupFold_wellKeyed apps [] (by simp))]
  rw [dedupFold_keys apps []]
  rfl

/-! ### C1 / C10 — what the Export Normalizer emits -/

theorem getFilteredApps_subset (apps : List AppItem) (cfg : ExportConfig) :
    ∀ a ∈ getFilteredApps apps cfg, a ∈ apps := by
  obtain ⟨d, f⟩ := cfg
  intro a ha
  cases d <;> cases f
  · exact ha
  · exact List.mem_of_mem_filter ha
  · have ha' : a ∈ (apps.foldl dedupStep []).map Prod.snd := ha
    obtain ⟨p, hp, rfl⟩ := List.mem_map.1 ha'
    rcases dedupFold_mem_origin apps [] p hp with h | h
    · simp at h
    · exact h
  · have ha' : a ∈ ((apps.filter keepCompat).foldl dedupStep []).map Prod.snd := ha
    obtain ⟨p, hp, rfl⟩ := List.mem_map.1 ha'
    rcases dedupFold_mem_origin (apps.filter keepCompat) [] p hp with h | h
    · simp at h
    · exact List.mem_of_mem_filter h

/-- C1: every app element of the exported document is `exportApp` of a source
record — a structure with no `compatibilityStatus` field — and its
`screenshotURLs` are the source record's entries with empty or
whitespace-only strings dropped, in their original relative order
(`List.filter`, a sublist of the source list). -/
theorem export_no_status_no_blank_screens :
    ∀ (repo : Repo) (cfg : ExportConfig) (e : ExportedApp),
      e ∈ (processRepoForExport repo cfg).apps →
      (∀ u ∈ e.screenshotURLs, u ≠ "" ∧ trimStr u ≠ "") ∧
      ∃ a ∈ repo.apps, e = exportApp a ∧
        e.screenshotURLs = a.screenshotURLs.filter screenshotKeep ∧
        e.screenshotURLs.Sublist a.screenshotURLs := by
  intro repo cfg e he
  have he' : e ∈ (getFilteredApps repo.apps cfg).map exportApp := he
  obtain ⟨a, ha, rfl⟩ := List.mem_map.1 he'
  have hmem : a ∈ repo.apps := getFilteredApps_subset repo.apps cfg a ha
  refine ⟨?_, a, hmem, rfl, rfl, List.filter_sublist _⟩
  intro u hu
  have hk : screenshotKeep u = true := List.of_mem_filter hu
  simp only [screenshotKeep, Bool.and_eq_true, Bool.not_eq_true',
    decide_eq_false_iff_not] at hk
  exact hk

/-- Witness for C1 on a concrete repo whose single app carries screenshots
`["a", "", "  ", "b"]`. -/
theorem export_no_status_no_blank_screens_w :
    (∀ u ∈ (exportApp shotApp).screenshotURLs, u ≠ "" ∧ trimStr u ≠ "") ∧
    ∃ a ∈ shotRepo.apps, exportApp shotApp = exportApp a ∧
      (exportApp shotApp).screenshotURLs
        = a.screenshotURLs.filter screenshotKeep ∧
      (exportApp shotApp).screenshotURLs.Sublist a.screenshotURLs :=
  export_no_status_no_blank_screens shotRepo ⟨true, true⟩ (exportApp shotApp)
    (by decide)

/-- C10 counterexample: the exported manifest KEEPS the internal record `id` —
the destructuring in `processRepoForExport` removes only
`compatibilityStatus`, so the app element of this export still carries
`id = "delta-sample"`. -/
theorem export_keeps_id_cex :
    (processRepoForExport shotRepo ⟨true, true⟩).apps.map ExportedApp.id
      = ["delta-sample"] := by decide

/-- C10 amended: every exported app element is `exportApp` of a source
record — the published-manifest fields PLUS the internal record `id`, carried
verbatim; only `compatibilityStatus` is stripped. -/
theorem export_fields_rule :
    ∀ (repo : Repo) (cfg : ExportConfig) (e : ExportedApp),
      e ∈ (processRepoForExport repo cfg).apps →
      ∃ a ∈ repo.apps, e = exportApp a ∧ e.id = a.id := by
  intro repo cfg e he
  have he' : e ∈ (getFilteredApps repo.apps cfg).map exportApp := he
  obtain ⟨a, ha, rfl⟩ := List.mem_map.1 he'
  exact ⟨a, getFilteredApps_subset repo.apps cfg a ha, rfl, rfl⟩

/-- Witness for C10's amended theorem. -/
theorem export_fields_rule_w :
    ∃ a ∈ shotRepo.apps, exportApp shotApp = exportApp a ∧
      (exportApp shotApp).id = a.id :=
  export_fields_rule shotRepo ⟨false, false⟩ (exportApp shotApp) (by decide)

/-! ### C2 — idempotence of export -/

theorem filter_screenshotKeep_idem (l : List String) :
    (l.filter screenshotKeep).filter screenshotKeep = l.filter screenshotKeep :=
  List.filter_eq_self.2 (fun _ hu => List.of_mem_filter hu)

theorem exportApp_roundtrip (a : AppItem) :
    exportApp (reimportApp (exportApp a)) = exportApp a := by
  simp [exportApp, reimportApp, filter_screenshotKeep_idem]

theorem dedup_of_nodup_keys (l : List AppItem)
    (h : (l.map dedupKey).Nodup) :
    (l.foldl dedupStep []).map Prod.snd = l := by
  rw [dedupFold_of_fresh l [] h (fun a _ => rfl)]
  simp only [List.nil_append, List.map_map]
  rw [show Prod.snd ∘ (fun a : AppItem => (dedupKey a, a)) = id from rfl,
    List.map_id]

theorem dedup_output_keys_nodup (l : List AppItem) :
    (((l.foldl dedupStep []).map Prod.snd).map dedupKey).Nodup := by
  rw [wellKeyed_snd_map (l.foldl dedupStep [])
    (dedupFold_wellKeyed l [] (by simp))]
  exact dedupFold_keys_nodup l [] (by simp)

theorem getFilteredApps_fixed (cfg : ExportConfig) (l : List AppItem)
    (hstat : ∀ a ∈ l, keepCompat a = true)
    (hnd : cfg.deduplicate = true → (l.map dedupKey).Nodup) :
    getFilteredApps l cfg = l := by
  obtain ⟨d, f⟩ := cfg
  cases d <;> cases f
  · rfl
  · show l.filter keepCompat = l
    exact List.filter_eq_self.2 hstat
  · show (l.foldl dedupStep []).map Prod.snd = l
    exact dedup_of_nodup_keys l (hnd rfl)
  · show ((l.filter keepCompat).foldl dedupStep []).map Prod.snd = l
    rw [List.filter_eq_self.2 hstat]
    exact dedup_of_nodup_keys l (hnd rfl)

theorem getFilteredApps_keys_nodup (apps : List AppItem) (f : Bool) :
    ((getFilteredApps apps ⟨true, f⟩).map dedupKey).Nodup := by
  cases f
  · exact dedup_output_keys_nodup apps
  · exact dedup_output_keys_nodup (apps.filter keepCompat)

/-- C2: feeding the exported document back in as a repo and exporting again
with the same configuration reproduces the same document — the status filter
is a no-op on records whose `compatibilityStatus` key is absent, the dedup
walk is the identity on a list whose keys are already pairwise distinct, and
the screenshot filter is idempotent. -/
theorem export_idempotent :
    ∀ (repo : Repo) (cfg : ExportConfig),
      processRepoForExport (reimportRepo (processRepoForExport repo cfg)) cfg
        = processRepoForExport repo cfg := by
  intro repo cfg
  obtain ⟨d, f⟩ := cfg
  have hl : (reimportRepo (processRepoForExport repo ⟨d, f⟩)).apps
      = (getFilteredApps repo.apps ⟨d, f⟩).map
          (fun a => reimportApp (exportApp a)) := by
    show ((getFilteredApps repo.apps ⟨d, f⟩).map exportApp).map reimportApp = _
    rw [List.map_map]
    rfl
  have hkey : getFilteredApps
      ((reimportRepo (processRepoForExport repo ⟨d, f⟩)).apps) ⟨d, f⟩
      = (getFilteredApps repo.apps ⟨d, f⟩).map
          (fun a => reimportApp (exportApp a)) := by
    rw [hl]
    refine getFilteredApps_fixed ⟨d, f⟩ _ ?_ ?_
    · intro a ha
      obtain ⟨b, _, rfl⟩ := List.mem_map.1 ha
      rfl
    · intro hd
      have hmk : ((getFilteredApps repo.apps ⟨d, f⟩).map
            (fun a => reimportApp (exportApp a))).map dedupKey
          = (getFilteredApps repo.apps ⟨d, f⟩).map dedupKey := by
        rw [List.map_map]
        exact List.map_congr_left (fun a _ => rfl)
      rw [hmk]
      cases d
      · simp at hd
      · exact getFilteredApps_keys_nodup repo.apps f
  unfold processRepoForExport
  simp only [ExportedRepo.mk.injEq]
  refine ⟨rfl, rfl, rfl, rfl, rfl, rfl, rfl, ?_⟩
  show (getFilteredApps ((reimportRepo (processRepoForExport repo ⟨d, f⟩)).apps)
      ⟨d, f⟩).map exportApp = _
  rw [hkey, List.map_map]
  exact List.map_congr_left (fun a _ => exportApp_roundtrip a)
